import Mathlib

/-
  Verification of the structured-merge code model, entity matcher and
  scheduling engines of the EdgeCentric LLM C-to-Rust transpiler.

  The definitions below are a shallow embedding of the Python sources:

  * `RPiece`, `addC`, `strictDesc`, `trimmedF`, `walkF`, `pieceRefRanges`
    embed the Piece tree of `llm_c2rust/analyzer/utils.py` and
    `llm_c2rust/analyzer/rust_pieces.py`.  A `Piece` is either an atomic
    named item (`atom`) or a named-child container (`node`); the concrete
    Python subclasses (`RustFn`, `RustStruct`, `RustImpl`, ...) are
    distinguished by a `kind` tag, and the per-class `_header`/`_sep`/
    `_tail` rendering properties become fields of `NodeInfo`.  Containers
    store their children in insertion order (`OrderedDict`), modelled as a
    list with unique names; parent pointers are left implicit (the tree is
    values, a child's parent is the node holding it).
  * the matcher cascade functions of `analyzer/utils.py` /
    `analyzer/matcher.py` are embedded with the external `thefuzz.ratio`
    scorer abstracted as a `simScore` parameter (it is a third-party
    library, not repository code); the only facts the theorems use about
    it are stated as hypotheses at the concrete names involved.
  * `buildMatches`/`matchF`/`tryToMatchF` embed
    `TreesitterMatcher._match`.  C pieces hash and compare by their text
    (`Piece.__eq__`/`__hash__`), so a source piece is identified with its
    text (a `String`); the per-piece matching function is abstracted.
  * `addRelation`/`removeRelation` embed the relation bookkeeping of
    `core/edge_centric_engine.py`.
  * `removeTest`/`replNM` embed the attribute normalization of
    `RustPiece.create` (`re.sub(r"\n?[ \t]*#\[test\]", "", ...)` followed
    by `str.replace("#[no_mangle]", "#[unsafe(no_mangle)]")`).
-/

namespace C2R

/-- Rendering/identity data of a container piece: the concrete subclass is
`kind`; `splittable` tells whether the class derives `RustSplittable`
(`RustImpl`, `RustCode`) or only `RustExtendable` (`RustStruct`,
`RustEnum`, `RustUse`, `RustTrait`); `name` is the `_name` used as the key
in the parent's `_items_of_name`; `comm`/`attr` are `_comm_text` and
`_attr_text`; `header`/`sep`/`tail` are the `_header`/`_sep`/`_tail`
properties; `typeName` is `RustImpl.type_name` (empty elsewhere). -/
structure NodeInfo where
  kind : Nat
  splittable : Bool
  name : String
  comm : String
  attr : String
  header : String
  sep : String
  tail : String
  typeName : String
deriving DecidableEq

/-- A Piece of the target-code tree (`analyzer/utils.py`): an atomic item
(`RustFn`, `RustConst`, `RustField`, ... — `kind` is the subclass tag,
then `_name`, `_comm_text`, `_attr_text`, `_text`) or a container with
named children (`RustExtendable._items_of_name`, in insertion order). -/
inductive RPiece : Type where
  | atom (kind : Nat) (name comm attr text : String) : RPiece
  | node (info : NodeInfo) (children : List RPiece) : RPiece

mutual
def decEqRPiece : (a b : RPiece) → Decidable (a = b)
  | .atom k n c a t, .atom k' n' c' a' t' =>
    match decEq k k', decEq n n', decEq c c', decEq a a', decEq t t' with
    | isTrue h1, isTrue h2, isTrue h3, isTrue h4, isTrue h5 =>
        isTrue (by subst h1 h2 h3 h4 h5; rfl)
    | isFalse h, _, _, _, _ => isFalse (by intro he; cases he; exact h rfl)
    | _, isFalse h, _, _, _ => isFalse (by intro he; cases he; exact h rfl)
    | _, _, isFalse h, _, _ => isFalse (by intro he; cases he; exact h rfl)
    | _, _, _, isFalse h, _ => isFalse (by intro he; cases he; exact h rfl)
    | _, _, _, _, isFalse h => isFalse (by intro he; cases he; exact h rfl)
  | .node i cs, .node i' cs' =>
    match decEq i i', decEqRPieceList cs cs' with
    | isTrue h1, isTrue h2 => isTrue (by subst h1 h2; rfl)
    | isFalse h, _ => isFalse (by intro he; cases he; exact h rfl)
    | _, isFalse h => isFalse (by intro he; cases he; exact h rfl)
  | .atom .., .node .. => isFalse (by intro he; cases he)
  | .node .., .atom .. => isFalse (by intro he; cases he)
def decEqRPieceList : (as bs : List RPiece) → Decidable (as = bs)
  | [], [] => isTrue rfl
  | [], _ :: _ => isFalse (by intro he; cases he)
  | _ :: _, [] => isFalse (by intro he; cases he)
  | a :: as, b :: bs =>
    match decEqRPiece a b, decEqRPieceList as bs with
    | isTrue h1, isTrue h2 => isTrue (by subst h1 h2; rfl)
    | isFalse h, _ => isFalse (by intro he; cases he; exact h rfl)
    | _, isFalse h => isFalse (by intro he; cases he; exact h rfl)
end

instance : DecidableEq RPiece := decEqRPiece

/-- `Piece.name` / `RustPiece.name` (`_name`). -/
def RPiece.nameOf : RPiece → String
  | .atom _ n _ _ _ => n
  | .node i _ => i.name

/-- `isinstance(piece, RustExtendable)`. -/
def RPiece.isNode : RPiece → Bool
  | .atom .. => false
  | .node .. => true

/-- `isinstance(piece, RustSplittable)`. -/
def RPiece.isSplittable : RPiece → Bool
  | .atom .. => false
  | .node i _ => i.splittable

/-- `RustExtendable.items` (for atoms: no children). -/
def RPiece.childrenOf : RPiece → List RPiece
  | .atom .. => []
  | .node _ cs => cs

/-- `type(a) == type(b)` on Pieces (same concrete subclass). -/
def sameConcreteType : RPiece → RPiece → Bool
  | .atom k _ _ _ _, .atom k' _ _ _ _ => k == k'
  | .node i _, .node i' _ => i.kind == i'.kind
  | _, _ => false

/-- `"\n".join(filter(None, parts))` — used by `Piece.text`. -/
def joinNE (parts : List String) : String :=
  String.intercalate "\n" (parts.filter (fun s => s ≠ ""))

mutual
/-- `Piece.text`: comment, attributes and body joined by newlines, where a
container's body is `_header + _sep.join(child texts) + _tail`
(`RustExtendable.text`). -/
def render : RPiece → String
  | .atom _ _ comm attr text => joinNE [comm, attr, text]
  | .node info cs =>
      joinNE [info.comm, info.attr, info.header ++ renderKids info.sep cs ++ info.tail]
/-- `sep.join(item.text for item in items)`. -/
def renderKids (sep : String) : List RPiece → String
  | [] => ""
  | [c] => render c
  | c :: c' :: rest => render c ++ sep ++ renderKids sep (c' :: rest)
end

mutual
/-- All strict descendants of a piece, in preorder.  `container.contains(p)`
of `analyzer/utils.py` holds exactly when `p` is a strict descendant. -/
def strictDesc : RPiece → List RPiece
  | .atom .. => []
  | .node _ cs => descList cs
def descList : List RPiece → List RPiece
  | [] => []
  | c :: rest => c :: (strictDesc c ++ descList rest)
end

/-- `name in container._items_of_name`. -/
def hasChildNamed (cs : List RPiece) (n : String) : Bool :=
  cs.any (fun c => c.nameOf == n)

/-- `container._items_of_name.get(n)` (first — unique — child of that name). -/
def findByName (cs : List RPiece) (n : String) : Option RPiece :=
  cs.find? (fun c => c.nameOf == n)

/-- `del container._items_of_name[n]` (removes the unique entry keyed `n`). -/
def eraseFirstByName : List RPiece → String → List RPiece
  | [], _ => []
  | c :: cs, n => if c.nameOf == n then cs else c :: eraseFirstByName cs n

/-- `RustExtendable.__add`: insert `sub` only if no child has its name;
returns the updated container and whether the insert happened. -/
def nodeAddIfAbsent : RPiece → RPiece → RPiece × Bool
  | .node info cs, sub =>
      if hasChildNamed cs sub.nameOf then (.node info cs, false)
      else (.node info (cs ++ [sub]), true)
  | p, _ => (p, false)

/-- The transplant loop of `RustExtendable.add`: for each child of the old
container, `item.__add(sub_item)`; subitems inserted successfully are
collected (they are appended to `popped` in the source). -/
def transplantAll (item : RPiece) (subs : List RPiece) : RPiece × List RPiece :=
  subs.foldl
    (fun acc sub =>
      let r := nodeAddIfAbsent acc.1 sub
      (r.1, if r.2 then acc.2 ++ [sub] else acc.2))
    (item, [])

/-- Result of `RustExtendable.add` on a container: its new child list, the
returned `popped` list, and the inserted item as it ends up in the tree
(the same object as the argument in Python; here its value after the
transplant loop mutated it). -/
structure AddResult where
  children : List RPiece
  popped : List RPiece
  added : RPiece
deriving DecidableEq

/-- `RustExtendable.add(item)`, acting on the container's child list: look
up the old child of the same name; if both old and new are containers of
the same concrete type, move the old children whose names are absent in
the new container into it (collecting them in `popped`); then the old
child is removed (and appended to `popped`) and the new item stored under
its name — i.e. deleted from its position and appended last. -/
def addC (cs : List RPiece) (item : RPiece) : AddResult :=
  match findByName cs item.nameOf with
  | some old =>
      let tr :=
        if item.isNode && sameConcreteType old item then transplantAll item old.childrenOf
        else (item, [])
      { children := eraseFirstByName cs item.nameOf ++ [tr.1],
        popped := tr.2 ++ [old],
        added := tr.1 }
  | none => { children := cs ++ [item], popped := [], added := item }

/-- Folding `add` over a list of items (the `for ... p.add(...)` loops of
`trimmed`/`split`/`copy`). -/
def addMany (cs : List RPiece) (items : List RPiece) : List RPiece :=
  items.foldl (fun acc it => (addC acc it).children) cs

/-- `any(item.contains(p) for p in pieces_set)`: some requested piece is a
strict descendant of `item`. -/
def hasDescIn (item : RPiece) (s : List RPiece) : Bool :=
  (strictDesc item).any (fun d => s.contains d)

mutual
/-- `RustSplittable.trimmed(pieces)`: a copy containing as many of the
requested pieces as possible — requested children are kept whole,
splittable children are recursively trimmed, non-splittable containers
holding a requested strict descendant are kept whole, everything else is
dropped; an empty result becomes `None`.  (`item.copy()` is the identity
here, since pieces are values.)  Membership in the requested set uses
structural equality, matching `Piece.__eq__` whenever distinct pieces have
distinct texts. -/
def trimmedF : RPiece → List RPiece → Option RPiece
  | .atom .., _ => none
  | .node info cs, s =>
      let kids := addMany [] (trimKids cs s)
      if kids.isEmpty then none else some (.node info kids)
/-- The selection loop body of `trimmed`: the piece (if any) each child
contributes, in order; `trimmed` `add`s them into an `empty_copy`. -/
def trimKids : List RPiece → List RPiece → List RPiece
  | [], _ => []
  | c :: rest, s =>
      (if s.contains c then [c]
       else
         match c with
         | .node i _ =>
             if i.splittable then
               match trimmedF c s with
               | some spl => [spl]
               | none => []
             else if hasDescIn c s then [c] else []
         | .atom .. => []) ++ trimKids rest s
end

mutual
/-- `RustSplittable.walk`: the `(PieceRef, text fragment)` stream of a
splittable container, in rendering order — its header, each child
(recursing into splittable children, otherwise the child's whole text),
separators between children, then its tail.  A `PieceRef` is modelled as
its name path from the root.  (`RustCode` sorts its children by kind at
render time; children are taken in stored order here, which covers every
rendering order.) -/
def walkF : RPiece → List String → List (List String × String)
  | .atom k n c a t, ref => [(ref, render (.atom k n c a t))]
  | .node info cs, ref =>
      (ref, info.header) :: (walkItems cs info.sep ref ++ [(ref, info.tail)])
/-- The child loop of `walk`, with the separator yielded between items. -/
def walkItems : List RPiece → String → List String → List (List String × String)
  | [], _, _ => []
  | c :: rest, sep, ref =>
      (if c.isSplittable then walkF c (ref ++ [c.nameOf])
       else [(ref ++ [c.nameOf], render c)])
      ++ ((if rest.isEmpty then [] else [(ref, sep)]) ++ walkItems rest sep ref)
end

/-- `text.count("\n")`. -/
def countNL (s : String) : Nat := s.toList.countP (fun c => c == '\n')

/-- The characters of `text.strip(" \t\n,;\x7b\x7d")`. -/
def stripChars : List Char := [' ', '\t', '\n', ',', ';', '\x7b', '\x7d']

/-- `text.strip(" \t\n,;\x7b\x7d")` is non-empty — i.e. some character of
the fragment is outside the stripped set (stripping only trims the two
ends, so the results agree). -/
def keepFrag (s : String) : Bool := s.toList.any (fun c => !stripChars.contains c)

/-- The running-line-number loop of `RustCode.piece_ref_ranges`: both
bounds inclusive, 1-based; fragments that strip to nothing are skipped but
still advance the line counter. -/
def rangesAux : Nat → List (List String × String) → List (List String × Nat × Nat)
  | _, [] => []
  | start, (ref, text) :: rest =>
      let endl := start + countNL text
      (if keepFrag text then [(ref, start, endl)] else []) ++ rangesAux endl rest

/-- `RustCode.piece_ref_ranges()`. -/
def pieceRefRanges (t : RPiece) : List (List String × Nat × Nat) :=
  rangesAux 1 (walkF t [])

/-- The contribution of one child in the `trimmed` loop (definitionally
the head step of `trimKids`). -/
def trimSelect (c : RPiece) (s : List RPiece) : List RPiece :=
  if s.contains c then [c]
  else
    match c with
    | .node i _ =>
        if i.splittable then
          match trimmedF c s with
          | some spl => [spl]
          | none => []
        else if hasDescIn c s then [c] else []
    | .atom .. => []

mutual
/-- The `_items_of_name` dict invariant: child names are unique within
every container, recursively (a Python dict cannot hold duplicate keys). -/
def wfNames : RPiece → Bool
  | .atom .. => true
  | .node _ cs => wfNamesList cs
def wfNamesList : List RPiece → Bool
  | [] => true
  | c :: rest => wfNames c && !hasChildNamed rest c.nameOf && wfNamesList rest
end

/- ------------------------------------------------------------------
   Entity matcher (`analyzer/utils.py` name matching helpers and
   `analyzer/matcher.py` `match_piece`).  Concrete Rust piece classes are
   the kind tags below; `thefuzz.fuzz.ratio` is abstracted as a
   `simScore` parameter.
   ------------------------------------------------------------------ -/

def kFn : Nat := 0
def kConst : Nat := 1
def kStatic : Nat := 2
def kType : Nat := 3
def kFnSig : Nat := 4
def kField : Nat := 5
def kVariant : Nat := 6
def kMac : Nat := 7
def kStruct : Nat := 8
def kEnum : Nat := 9
def kImpl : Nat := 10
def kImplTrait : Nat := 11
def kTrait : Nat := 12
def kUse : Nat := 13
def kCode : Nat := 14

/-- The concrete-class tag of a piece (for the `type(p) in kinds` tests). -/
def RPiece.kindOf : RPiece → Nat
  | .atom k _ _ _ _ => k
  | .node i _ => i.kind

/-- First entry with the maximal similarity — Python
`max(matched, key=lambda x: x[0])` keeps the first maximum. -/
def bestBySim : List (Nat × RPiece) → Option (Nat × RPiece)
  | [] => none
  | x :: xs => some (xs.foldl (fun b y => if b.1 < y.1 then y else b) x)

/-- `_match_similarly(name, pieces, kinds, threshold, convert_name)`:
score every candidate of an allowed kind and a non-empty name against the
converted source name; return the best scorer at or above the threshold,
else nothing.  `simScore` stands for `thefuzz.fuzz.ratio`. -/
def matchSimilarlyGen ( simScore : String → String → Nat) (convert : String → String)
    (threshold : Nat) (name : Option String) (pieces : List RPiece)
    (kinds : List Nat) : List RPiece :=
  match name with
  | none => []
  | some n =>
    if n == "" then []
    else
      let cands := pieces.filter (fun p => kinds.contains p.kindOf)
      let scored := cands.filterMap (fun p =>
        if p.nameOf == "" then none
        else
          let s := simScore (convert n) (convert p.nameOf)
          if threshold ≤ s then some (s, p) else none)
      match bestBySim scored with
      | some best => [best.2]
      | none => []

/-- `str.lower()` (candidate names are ASCII identifiers). -/
def strLower (s : String) : String := String.mk (s.toList.map Char.toLower)

/-- `re.sub(r"([a-z])([A-Z])", r"\1 \2", name)`: a space between each
lowercase/uppercase pair (the consumed uppercase letter can never start a
new match, so rescanning from it is equivalent to `re`'s continuing after
the match). -/
def camelSplit : List Char → List Char
  | [] => []
  | [c] => [c]
  | a :: b :: rest =>
      if a.isLower && b.isUpper then a :: ' ' :: camelSplit (b :: rest)
      else a :: camelSplit (b :: rest)

/-- `\s` for the ASCII range. -/
def isPySpace (c : Char) : Bool :=
  c == ' ' || c == '\t' || c == '\n' || c == '\r' || c == '\x0b' || c == '\x0c'

/-- Split a character list at every character satisfying `p`. -/
def splitChars (p : Char → Bool) : List Char → List (List Char)
  | [] => [[]]
  | c :: rest =>
      let r := splitChars p rest
      if p c then [] :: r
      else
        match r with
        | [] => [[c]]
        | t :: ts => (c :: t) :: ts

/-- `tokenize(name)`: split camelCase, lowercase, split on `_`/whitespace.
`splitChars` cuts at every separator character where
`re.split(r"[_\s]+", ...)` cuts at runs, producing extra empty tokens; all
use sites join the tokens with `""`, where the two coincide. -/
def tokenize (s : String) : List String :=
  (splitChars (fun c => c == '_' || isPySpace c)
    ((camelSplit s.toList).map Char.toLower)).map String.mk

/-- `"".join(tokenize(name))`. -/
def tokensJoined (s : String) : String := String.join (tokenize s)

/-- `match_by_tokens(name, pieces, kinds)`: the first candidate of an
allowed kind whose joined tokens equal the source name's joined tokens. -/
def matchByTokensF (name : Option String) (pieces : List RPiece)
    (kinds : List Nat) : List RPiece :=
  match name with
  | none => []
  | some n =>
    if n == "" then []
    else
      match (pieces.filter (fun p => kinds.contains p.kindOf)).find?
              (fun p => p.nameOf != "" && tokensJoined p.nameOf == tokensJoined n) with
      | some p => [p]
      | none => []

/-- `match_exactly_or_by_tokens`: exact (threshold-100 similarity) match
first, then token-normalized match. -/
def matchExactlyOrByTokens ( simScore : String → String → Nat) (name : Option String)
    (pieces : List RPiece) (kinds : List Nat) : List RPiece :=
  let e := matchSimilarlyGen simScore (fun s => s) 100 name pieces kinds
  if e.isEmpty then matchByTokensF name pieces kinds else e

/-- `match_exactly_lower`. -/
def matchExactlyLower ( simScore : String → String → Nat) (name : Option String)
    (pieces : List RPiece) (kinds : List Nat) : List RPiece :=
  matchSimilarlyGen simScore strLower 100 name pieces kinds

/-- `exact_same_names`. -/
def exactSameNames : Option String → Option String → Bool
  | some a, some b => a != "" && b != "" && a == b
  | _, _ => false

/-- `tokens_same_names`. -/
def tokensSameNames : Option String → Option String → Bool
  | some a, some b => a != "" && b != "" && tokensJoined a == tokensJoined b
  | _, _ => false

/-- `isinstance(rust_piece, RustImpl)` (covers `RustImplTrait`). -/
def implKinds : List Nat := [kImpl, kImplTrait]

/-- The `match_impl_method` fallback of `match_piece` for a `CFunction`:
the first `RustFn` inside an impl block whose name matches exactly, or
whose `type_name + "_" + name` token-matches the source name. -/
def matchImplMethod (srcName : Option String) (targets : List RPiece) : List RPiece :=
  match targets.findSome? (fun rp =>
    match rp with
    | .node i cs =>
        if implKinds.contains i.kind then
          cs.findSome? (fun it =>
            if it.kindOf == kFn then
              if exactSameNames srcName (some it.nameOf) then some it
              else if tokensSameNames srcName (some (i.typeName ++ "_" ++ it.nameOf)) then some it
              else none
            else none)
        else none
    | .atom .. => none) with
  | some it => [it]
  | none => []

/-- `match_piece` for a `CFunction` (counter kinds `[RustFn]`). -/
def matchPieceCFunction ( simScore : String → String → Nat) (name : Option String)
    (targets : List RPiece) : List RPiece :=
  let r := matchExactlyOrByTokens simScore name targets [kFn]
  if r.isEmpty then matchImplMethod name targets else r

/-- A parsed source C enum (`CEnum`): its optional name and the set of
its enumerator names (`enumerator_names`, modelled as a list). -/
structure CEnumSrc where
  name : Option String
  enumeratorNames : List String

/-- Equality of the two lowercased name sets (Python compares
`set` values; sets are equal iff each lowered element occurs in the
other). -/
def lowerSetEq (xs ys : List String) : Bool :=
  xs.all (fun x => ys.any (fun y => strLower y == strLower x)) &&
  ys.all (fun y => xs.any (fun x => strLower x == strLower y))

/-- The `match_enumerators` fallback for a `CEnum`: the first candidate
`RustEnum` whose lowercased variant-name set equals the lowercased source
enumerator-name set. -/
def matchEnumerators (e : CEnumSrc) (targets : List RPiece) : List RPiece :=
  match targets.find? (fun c =>
      c.kindOf == kEnum &&
      lowerSetEq (c.childrenOf.map RPiece.nameOf) e.enumeratorNames) with
  | some c => [c]
  | none => []

/-- The `match_declarations` fallback for a `CEnum`: every enumerator name
matched against constant/static items. -/
def matchDeclarations ( simScore : String → String → Nat) (e : CEnumSrc)
    (targets : List RPiece) : List RPiece :=
  (e.enumeratorNames.map
    (fun n => matchExactlyOrByTokens simScore (some n) targets [kConst, kStatic])).flatten

/-- `match_piece` for a `CEnum`: name match, token match, structural
enumerator-set match, then per-enumerator declaration match. -/
def matchPieceCEnum ( simScore : String → String → Nat) (e : CEnumSrc)
    (targets : List RPiece) : List RPiece :=
  let a := matchExactlyOrByTokens simScore e.name targets [kEnum]
  if !a.isEmpty then a
  else
    let b := matchByTokensF e.name targets [kEnum]
    if !b.isEmpty then b
    else
      let c := matchEnumerators e targets
      if !c.isEmpty then c else matchDeclarations simScore e targets

/- ------------------------------------------------------------------
   `TreesitterMatcher._match` / `match` / `try_to_match`
   (`analyzer/matcher.py`).  A source `CPiece` hashes and compares by its
   text (`Piece.__eq__`/`__hash__`), so it is identified with its text; a
   `CodeSegment` is abstracted to an id; `match_piece` is abstracted to a
   function from a piece to its matched target pieces.
   ------------------------------------------------------------------ -/

abbrev SegId := Nat

instance {ε α : Type} [DecidableEq ε] [DecidableEq α] : DecidableEq (Except ε α) :=
  fun a b =>
    match a, b with
    | .ok x, .ok y =>
        match decEq x y with
        | isTrue h => isTrue (by subst h; rfl)
        | isFalse h => isFalse (by intro he; cases he; exact h rfl)
    | .error x, .error y =>
        match decEq x y with
        | isTrue h => isTrue (by subst h; rfl)
        | isFalse h => isFalse (by intro he; cases he; exact h rfl)
    | .ok _, .error _ => isFalse (by intro he; cases he)
    | .error _, .ok _ => isFalse (by intro he; cases he)

/-- `self.c_pieces[p] = s` — dict insert, overwriting (and keeping the
position of) an existing text-equal key. -/
def upsertPiece (m : List (String × SegId)) (cp : String) (s : SegId) :
    List (String × SegId) :=
  if m.any (fun e => e.1 == cp) then m.map (fun e => if e.1 == cp then (e.1, s) else e)
  else m ++ [(cp, s)]

/-- The `__init__` loop building `self.c_pieces` from `self.segments`. -/
def buildCPieces (segs : List (SegId × List String)) : List (String × SegId) :=
  segs.foldl (fun m sv => sv.2.foldl (fun m cp => upsertPiece m cp sv.1) m) []

/-- `matches[s].extend(rs)` on a `defaultdict(list)`: the key is created
even when `rs` is empty. -/
def dictAppend {α : Type} (m : List (SegId × List α)) (s : SegId) (rs : List α) :
    List (SegId × List α) :=
  if m.any (fun e => e.1 == s) then m.map (fun e => if e.1 == s then (e.1, e.2 ++ rs) else e)
  else m ++ [(s, rs)]

/-- The main loop of `_match`: for every source piece, extend its
segment's entry with that piece's matches. -/
def buildMatches {α : Type} (cps : List (String × SegId)) (mp : String → List α) :
    List (SegId × List α) :=
  cps.foldl (fun m e => dictAppend m e.2 (mp e.1)) []

/-- `self.segments - matches.keys()`: segments with no entry in `matches`
(the `final check` loop of `_match` calls `match_fail` on each). -/
def unmatchedSegs {α : Type} (segs : List (SegId × List String)) (mp : String → List α) :
    List SegId :=
  (segs.map (fun sv => sv.1)).filter
    (fun s => !(buildMatches (buildCPieces segs) mp).any (fun e => e.1 == s))

/-- `try_to_match`: `match_fail` is a no-op, and the mapping is returned
restricted to entries with a non-empty piece list. -/
def tryToMatchF {α : Type} (segs : List (SegId × List String)) (mp : String → List α) :
    List (SegId × List α) :=
  (buildMatches (buildCPieces segs) mp).filter (fun e => !e.2.isEmpty)

/-- `match`: `match_fail` raises `MatchFail`, so the call aborts exactly
when the final check finds a segment with no `matches` entry. -/
def matchF {α : Type} (segs : List (SegId × List String)) (mp : String → List α) :
    Except Unit (List (SegId × List α)) :=
  if (unmatchedSegs segs mp).isEmpty then .ok (tryToMatchF segs mp) else .error ()

/- ------------------------------------------------------------------
   Edge-centric engine relation bookkeeping
   (`core/edge_centric_engine.py`).
   ------------------------------------------------------------------ -/

/-- The engine's scheduling state: `self._relations` (pending unit pairs)
and `self._relation_try_count` (a total count map — `defaultdict(int)`).
A `CodeSegment` is abstracted to a `Nat` id. -/
structure EngineSt where
  relations : Finset (Nat × Nat)
  tryCount : Nat × Nat → Nat

/-- `EdgeCentricEngine._add_relation(r)`: each pair of `set(r)` is added
unless already pending or its retry count has reached `max_retry`. -/
def addRelation (maxRetry : Nat) (st : EngineSt) (r : Finset (Nat × Nat)) : EngineSt :=
  { st with
    relations :=
      st.relations ∪ r.filter (fun p => p ∉ st.relations ∧ st.tryCount p < maxRetry) }

/-- `EdgeCentricEngine._remove_relation(r)`: each pending pair of `set(r)`
is removed and its retry count incremented. -/
def removeRelation (st : EngineSt) (r : Finset (Nat × Nat)) : EngineSt :=
  { relations := st.relations \ r,
    tryCount := fun p => if p ∈ r ∧ p ∈ st.relations then st.tryCount p + 1 else st.tryCount p }

/-- The operations that touch `_relations` after initialization. -/
inductive EngineOp where
  | addR (r : Finset (Nat × Nat))
  | removeR (r : Finset (Nat × Nat))

def applyOp (maxRetry : Nat) (st : EngineSt) : EngineOp → EngineSt
  | .addR r => addRelation maxRetry st r
  | .removeR r => removeRelation st r

/-- An arbitrary interleaving of `_add_relation`/`_remove_relation`
calls. -/
def applyOps (maxRetry : Nat) (st : EngineSt) (ops : List EngineOp) : EngineSt :=
  ops.foldl (applyOp maxRetry) st

/- ------------------------------------------------------------------
   Attribute normalization of `RustPiece.create` (`analyzer/utils.py`):
   `re.sub(r"\n?[ \t]*#\[test\]", "", attr)` then
   `attr.replace("#[no_mangle]", "#[unsafe(no_mangle)]")`.
   ------------------------------------------------------------------ -/

def patTest : List Char := "#[test]".toList
def patNM : List Char := "#[no_mangle]".toList
def repNM : List Char := "#[unsafe(no_mangle)]".toList

/-- The first list starts the second. -/
def begins : List Char → List Char → Bool
  | [], _ => true
  | _ :: _, [] => false
  | a :: as, b :: bs => a == b && begins as bs

/-- `pat in s` — `pat` occurs as a contiguous substring. -/
def containsSub (pat : List Char) : List Char → Bool
  | [] => begins pat []
  | s@(_ :: rest) => begins pat s || containsSub pat rest

/-- All suffixes of a character list. -/
def tailsL : List Char → List (List Char)
  | [] => [[]]
  | c :: rest => (c :: rest) :: tailsL rest

def dropIndent (s : List Char) : List Char := s.dropWhile (fun c => c == ' ' || c == '\t')

/-- One anchored attempt of `\n?[ \t]*#\[test\]`: the optional newline and
the indent are consumed greedily, then the literal must follow; since the
literal starts with `#`, which is neither a newline nor an indent
character, regex backtracking can never produce a match this attempt
misses.  Returns the rest of the input after the match. -/
def matchTestAt (s : List Char) : Option (List Char) :=
  let s1 := match s with
    | '\n' :: rest => rest
    | _ => s
  let s2 := dropIndent s1
  if begins patTest s2 then some (s2.drop patTest.length) else none

def removeTestAux : Nat → List Char → List Char
  | 0, s => s
  | _ + 1, [] => []
  | fuel + 1, c :: rest =>
      match matchTestAt (c :: rest) with
      | some r => removeTestAux fuel r
      | none => c :: removeTestAux fuel rest

/-- `re.sub(r"\n?[ \t]*#\[test\]", "", s)`: scan left to right, drop each
match and continue after it.  Fuel `s.length` always suffices: every step
consumes at least one character. -/
def removeTest (s : List Char) : List Char := removeTestAux s.length s

def replNMAux : Nat → List Char → List Char
  | 0, s => s
  | _ + 1, [] => []
  | fuel + 1, c :: rest =>
      if begins patNM (c :: rest) then repNM ++ replNMAux fuel (rest.drop (patNM.length - 1))
      else c :: replNMAux fuel rest

/-- `s.replace("#[no_mangle]", "#[unsafe(no_mangle)]")`: leftmost
non-overlapping occurrences, scanning resumes after each replacement.
Fuel `s.length` always suffices. -/
def replNM (s : List Char) : List Char := replNMAux s.length s

/-- The attribute normalization performed by `RustPiece.create` on
`_attr_text`. -/
def normAttr (s : String) : String := String.mk (replNM (removeTest s.toList))

/-- `RustPiece.create` + `Piece.text` for an atomic piece: comment block,
normalized attribute block and node text joined by newlines. -/
def renderCreated (comm attr text : String) : String :=
  joinNE [comm, normAttr attr, text]

/- ------------------------------------------------------------------
   Concrete pieces used by witnesses and counterexamples.
   ------------------------------------------------------------------ -/

def exInfoM : NodeInfo :=
  { kind := kStruct, splittable := false, name := "m", comm := "", attr := "",
    header := "struct m \x7b\n    ", sep := ",\n    ", tail := "\n\x7d", typeName := "" }
def exA : RPiece := .atom kField "A" "" "" "a: i32"
def exB : RPiece := .atom kField "B" "" "" "b: i32"
def exB2 : RPiece := .atom kField "B" "" "" "b: i64"
def exCc : RPiece := .atom kField "C" "" "" "c: i32"
def exOld : RPiece := .node exInfoM [exA, exB]
def exNew : RPiece := .node exInfoM [exB2, exCc]
def exRootInfo : NodeInfo :=
  { kind := kCode, splittable := true, name := "", comm := "", attr := "",
    header := "", sep := "\n\n", tail := "", typeName := "" }

def exImplInfo : NodeInfo :=
  { kind := kImpl, splittable := true, name := "impl X", comm := "", attr := "",
    header := "impl X \x7b\n    ", sep := "\n    ", tail := "\n\x7d", typeName := "X" }
def exFnF : RPiece := .atom kFn "f" "" "" "fn f() \x7b\x7d"
def exImpl : RPiece := .node exImplInfo [exFnF]
def exCode4 : RPiece := .node exRootInfo [exImpl]

def exStructInfo : NodeInfo :=
  { kind := kStruct, splittable := false, name := "s", comm := "", attr := "",
    header := "struct s \x7b\n    ", sep := ",\n    ", tail := "\n\x7d", typeName := "" }
def exF1 : RPiece := .atom kField "f1" "" "" "x: i32"
def exF2 : RPiece := .atom kField "f2" "" "" "y: i32"
def exStruct : RPiece := .node exStructInfo [exF1, exF2]
def exCode5 : RPiece := .node exRootInfo [exStruct]

def fnAdd : RPiece := .atom kFn "add" "" "" "fn add(a: i32, b: i32) -> i32 \x7b a + b \x7d"
def fnAddCap : RPiece := .atom kFn "Add" "" "" "fn Add(a: i32, b: i32) -> i32 \x7b a + b \x7d"
def enumColorInfo : NodeInfo :=
  { kind := kEnum, splittable := false, name := "Color", comm := "", attr := "",
    header := "enum Color \x7b\n    ", sep := ",\n    ", tail := "\n\x7d", typeName := "" }
def enumColor : RPiece :=
  .node enumColorInfo
    [.atom kVariant "red" "" "" "red", .atom kVariant "green" "" "" "green",
     .atom kVariant "blue" "" "" "blue"]
def cEnumRGB : CEnumSrc := { name := none, enumeratorNames := ["RED", "GREEN", "BLUE"] }

/-- A similarity scorer usable to instantiate `simScore` in witnesses:
scores 100 exactly on equal strings (as `thefuzz.fuzz.ratio` does on the
short names involved). -/
def simEq : String → String → Nat := fun a b => if a == b then 100 else 0

/-- An engine state whose pair `(0, 1)` has exhausted one retry. -/
def st9 : EngineSt := { relations := ∅, tryCount := fun _ => 1 }

/-- Two source units: unit 0 with one parsed piece, unit 1 with none. -/
def c1wSegs : List (SegId × List String) := [(0, ["p"]), (1, [])]

/- ==================================================================
   Helper lemmas about names, lookup and the transplant loop.
   ================================================================== -/

theorem nameOf_node (i : NodeInfo) (cs : List RPiece) :
    (RPiece.node i cs).nameOf = i.name := rfl

theorem hasChildNamed_iff (cs : List RPiece) (n : String) :
    hasChildNamed cs n = true ↔ ∃ x ∈ cs, x.nameOf = n := by
  simp [hasChildNamed]

theorem hasChildNamed_false_iff (cs : List RPiece) (n : String) :
    hasChildNamed cs n = false ↔ ∀ x ∈ cs, x.nameOf ≠ n := by
  simp [hasChildNamed]

theorem hasChildNamed_append (xs ys : List RPiece) (n : String) :
    hasChildNamed (xs ++ ys) n = (hasChildNamed xs n || hasChildNamed ys n) := by
  simp [hasChildNamed]

theorem findByName_eq_none (cs : List RPiece) (n : String) :
    findByName cs n = none ↔ ∀ x ∈ cs, x.nameOf ≠ n := by
  simp [findByName, List.find?_eq_none]

theorem findByName_append_left (xs ys : List RPiece) (n : String)
    (h : ∀ x ∈ xs, x.nameOf ≠ n) :
    findByName (xs ++ ys) n = findByName ys n := by
  induction xs with
  | nil => rfl
  | cons x rest ih =>
      have hx : (x.nameOf == n) = false := by
        simpa using h x (by simp)
      simp only [findByName, List.cons_append, List.find?]
      rw [hx]
      exact ih (fun y hy => h y (by simp [hy]))

theorem findByName_singleton_self (q : RPiece) :
    findByName [q] q.nameOf = some q := by
  simp [findByName, List.find?]

theorem eraseFirstByName_of_all_ne (cs : List RPiece) (n : String)
    (h : ∀ x ∈ cs, x.nameOf ≠ n) : eraseFirstByName cs n = cs := by
  induction cs with
  | nil => rfl
  | cons c rest ih =>
      have hc : (c.nameOf == n) = false := by simpa using h c (by simp)
      simp only [eraseFirstByName, hc]
      simp [ih (fun y hy => h y (by simp [hy]))]

theorem eraseFirstByName_append_left (xs ys : List RPiece) (n : String)
    (h : ∀ x ∈ xs, x.nameOf ≠ n) :
    eraseFirstByName (xs ++ ys) n = xs ++ eraseFirstByName ys n := by
  induction xs with
  | nil => rfl
  | cons x rest ih =>
      have hx : (x.nameOf == n) = false := by simpa using h x (by simp)
      simp only [eraseFirstByName, List.cons_append, hx]
      simp [ih (fun y hy => h y (by simp [hy]))]

theorem eraseFirstByName_name_ne (cs : List RPiece) (n : String)
    (hnodup : (cs.map RPiece.nameOf).Nodup) :
    ∀ x ∈ eraseFirstByName cs n, x.nameOf ≠ n := by
  induction cs with
  | nil => simp [eraseFirstByName]
  | cons c rest ih =>
      rw [List.map_cons, List.nodup_cons] at hnodup
      intro x hx
      by_cases hc : c.nameOf = n
      · rw [show eraseFirstByName (c :: rest) n = rest by simp [eraseFirstByName, hc]] at hx
        intro he
        exact hnodup.1 (hc ▸ he ▸ List.mem_map_of_mem RPiece.nameOf hx)
      · rw [show eraseFirstByName (c :: rest) n = c :: eraseFirstByName rest n by
              simp [eraseFirstByName, hc]] at hx
        rcases List.mem_cons.mp hx with h | h
        · exact h ▸ hc
        · exact ih hnodup.2 x h

theorem transplantAll_nil (it : RPiece) : transplantAll it [] = (it, []) := rfl

theorem transplant_fold_acc (subs : List RPiece) (it : RPiece) (acc : List RPiece) :
    subs.foldl
      (fun a sub =>
        let r := nodeAddIfAbsent a.1 sub
        (r.1, if r.2 then a.2 ++ [sub] else a.2))
      (it, acc)
    = ((transplantAll it subs).1, acc ++ (transplantAll it subs).2) := by
  induction subs generalizing it acc with
  | nil => simp [transplantAll]
  | cons s rest ih =>
      simp only [transplantAll, List.foldl_cons]
      rw [ih, ih]
      cases (nodeAddIfAbsent it s).2 <;> simp

theorem transplantAll_cons (it s : RPiece) (rest : List RPiece) :
    transplantAll it (s :: rest) =
      ((transplantAll (nodeAddIfAbsent it s).1 rest).1,
       (if (nodeAddIfAbsent it s).2 then [s] else []) ++
         (transplantAll (nodeAddIfAbsent it s).1 rest).2) := by
  show (s :: rest).foldl _ (it, []) = _
  rw [List.foldl_cons, transplant_fold_acc]
  cases (nodeAddIfAbsent it s).2 <;> simp

theorem transplantAll_spec (ii : NodeInfo) (subs : List RPiece) :
    ∀ ics : List RPiece, (subs.map RPiece.nameOf).Nodup →
    transplantAll (.node ii ics) subs =
      (.node ii (ics ++ subs.filter (fun x => !hasChildNamed ics x.nameOf)),
       subs.filter (fun x => !hasChildNamed ics x.nameOf)) := by
  induction subs with
  | nil => intro ics _; simp [transplantAll]
  | cons s rest ih =>
      intro ics hnd
      rw [List.map_cons, List.nodup_cons] at hnd
      rw [transplantAll_cons]
      cases hc : hasChildNamed ics s.nameOf with
      | true =>
          rw [show nodeAddIfAbsent (.node ii ics) s = (.node ii ics, false) by
                simp [nodeAddIfAbsent, hc]]
          rw [ih ics hnd.2]
          simp [List.filter_cons, hc]
      | false =>
          rw [show nodeAddIfAbsent (.node ii ics) s = (.node ii (ics ++ [s]), true) by
                simp [nodeAddIfAbsent, hc]]
          rw [ih (ics ++ [s]) hnd.2]
          have hfil : rest.filter (fun x => !hasChildNamed (ics ++ [s]) x.nameOf)
              = rest.filter (fun x => !hasChildNamed ics x.nameOf) := by
            apply List.filter_congr
            intro x hx
            have hne : s.nameOf ≠ x.nameOf := by
              intro he
              exact hnd.1 (he ▸ List.mem_map_of_mem RPiece.nameOf hx)
            simp [hasChildNamed_append, hasChildNamed, hne]
          rw [hfil]
          simp [List.filter_cons, hc]

theorem transplantAll_self (ii : NodeInfo) (ics : List RPiece) (subs : List RPiece)
    (h : ∀ s ∈ subs, hasChildNamed ics s.nameOf = true) :
    transplantAll (.node ii ics) subs = (.node ii ics, []) := by
  induction subs with
  | nil => rfl
  | cons s rest ih =>
      rw [transplantAll_cons]
      rw [show nodeAddIfAbsent (.node ii ics) s = (.node ii ics, false) by
            simp [nodeAddIfAbsent, h s (by simp)]]
      rw [ih (fun x hx => h x (by simp [hx]))]
      simp

theorem transplantAll_fst_shape (subs : List RPiece) :
    ∀ (ii : NodeInfo) (ics : List RPiece),
    ∃ ext, (transplantAll (.node ii ics) subs).1 = .node ii (ics ++ ext) := by
  induction subs with
  | nil => intro ii ics; exact ⟨[], by simp [transplantAll]⟩
  | cons s rest ih =>
      intro ii ics
      rw [transplantAll_cons]
      cases hc : hasChildNamed ics s.nameOf with
      | true =>
          rw [show nodeAddIfAbsent (.node ii ics) s = (.node ii ics, false) by
                simp [nodeAddIfAbsent, hc]]
          exact ih ii ics
      | false =>
          rw [show nodeAddIfAbsent (.node ii ics) s = (.node ii (ics ++ [s]), true) by
                simp [nodeAddIfAbsent, hc]]
          obtain ⟨ext, hext⟩ := ih ii (ics ++ [s])
          exact ⟨[s] ++ ext, by simp [hext]⟩

theorem addC_added_name (cs : List RPiece) (p : RPiece) :
    (addC cs p).added.nameOf = p.nameOf := by
  unfold addC
  cases hf : findByName cs p.nameOf with
  | none => rfl
  | some old =>
      cases p with
      | atom k n c a t => simp [RPiece.isNode]
      | node ii ics =>
          cases hcond : sameConcreteType old (.node ii ics) with
          | false => simp [RPiece.isNode, hcond]
          | true =>
              simp only [RPiece.isNode, hcond, Bool.and_true]
              obtain ⟨ext, hext⟩ := transplantAll_fst_shape old.childrenOf ii ics
              simp [hext, RPiece.nameOf]

theorem addC_readd (ds : List RPiece) (q : RPiece)
    (h : ∀ x ∈ ds, x.nameOf ≠ q.nameOf) :
    addC (ds ++ [q]) q = ⟨ds ++ [q], [q], q⟩ := by
  have hf : findByName (ds ++ [q]) q.nameOf = some q := by
    rw [findByName_append_left _ _ _ h, findByName_singleton_self]
  have herase : eraseFirstByName (ds ++ [q]) q.nameOf = ds := by
    rw [eraseFirstByName_append_left _ _ _ h]
    simp [eraseFirstByName]
  unfold addC
  rw [hf]
  cases q with
  | atom k n c a t => simp [RPiece.isNode, herase]
  | node ii ics =>
      have hself : transplantAll (.node ii ics) ics = (.node ii ics, []) :=
        transplantAll_self ii ics ics
          (fun s hs => (hasChildNamed_iff _ _).mpr ⟨s, hs, rfl⟩)
      simp [RPiece.isNode, sameConcreteType, RPiece.childrenOf, hself, herase]

/- ==================================================================
   Claim C2 — new-wins union.
   ================================================================== -/

/-- Claim C2: adding a container of the same concrete kind and name
`\x7bB', C\x7d` over an existing child `\x7bA, B\x7d` yields the container
`\x7bB', C, A\x7d` — the old-only child `A` is transplanted into the new
value, `B` is replaced by the same-named `B'`, and `C` is present; the new
container replaces the old one in the parent. -/
theorem c2_new_wins_union (cs : List RPiece) (i1 i2 : NodeInfo) (a b b' c : RPiece)
    (hfind : findByName cs i2.name = some (.node i1 [a, b]))
    (hkind : i1.kind = i2.kind)
    (hab' : a.nameOf ≠ b'.nameOf) (hac : a.nameOf ≠ c.nameOf)
    (hbb' : b.nameOf = b'.nameOf) :
    (addC cs (.node i2 [b', c])).added = .node i2 [b', c, a] ∧
    (addC cs (.node i2 [b', c])).children =
      eraseFirstByName cs i2.name ++ [.node i2 [b', c, a]] := by
  have htr : transplantAll (.node i2 [b', c]) [a, b] = (.node i2 [b', c, a], [a]) := by
    rw [transplantAll_cons]
    rw [show nodeAddIfAbsent (.node i2 [b', c]) a = (.node i2 [b', c, a], true) by
          simp [nodeAddIfAbsent, hasChildNamed, Ne.symm hab', Ne.symm hac]]
    rw [transplantAll_cons]
    rw [show nodeAddIfAbsent (.node i2 [b', c, a]) b = (.node i2 [b', c, a], false) by
          simp [nodeAddIfAbsent, hasChildNamed, hbb']]
    simp [transplantAll_nil]
  unfold addC
  rw [nameOf_node, hfind]
  simp [RPiece.isNode, sameConcreteType, hkind, RPiece.childrenOf, htr]

/-- Witness for `c2_new_wins_union`: the struct `m \x7bA, B\x7d` merged with
`m \x7bB', C\x7d` yields `m \x7bB', C, A\x7d`. -/
theorem c2_new_wins_union_witness :
    findByName [exOld] exInfoM.name = some (.node exInfoM [exA, exB]) ∧
    (addC [exOld] (.node exInfoM [exB2, exCc])).added = .node exInfoM [exB2, exCc, exA] :=
  ⟨by decide,
   (c2_new_wins_union [exOld] exInfoM exInfoM exA exB exB2 exCc (by decide) rfl
      (by decide) (by decide) (by decide)).1⟩

/- ==================================================================
   Claim C3 — what `add` returns as "evicted".
   ================================================================== -/

/-- Claim C3 counterexample: merging `m \x7bB', C\x7d` over `m \x7bA, B\x7d`
returns `[A, old]` — the transplanted child `A`, although it is still
reachable in the tree after the call (inside the new container), appears
in the returned list; so the returned list is not "exactly the set of
Pieces actually evicted from the tree" and contains a still-reachable
piece. -/
theorem c3_returned_contains_reachable_counterexample :
    (addC [exOld] exNew).popped = [exA, exOld] ∧
    exA ∈ strictDesc (.node exRootInfo (addC [exOld] exNew).children) := by
  constructor
  · decide
  · decide

/-- Claim C3 (amended): on a same-kind container collision, `add` returns
exactly the old value's children that were transplanted into the new value
(those whose names are absent among the new children — these stay
reachable in the tree), followed by the replaced old value itself; pieces
evicted inside the old value but not transplanted are not returned
separately. -/
theorem c3_popped_is_transplanted_plus_old (cs : List RPiece) (ii oi : NodeInfo)
    (ics ocs : List RPiece)
    (hfind : findByName cs ii.name = some (.node oi ocs))
    (hkind : oi.kind = ii.kind)
    (hnodup : (ocs.map RPiece.nameOf).Nodup) :
    (addC cs (.node ii ics)).popped =
      ocs.filter (fun x => !hasChildNamed ics x.nameOf) ++ [.node oi ocs] := by
  unfold addC
  rw [nameOf_node, hfind]
  simp [RPiece.isNode, sameConcreteType, hkind, RPiece.childrenOf,
        transplantAll_spec ii ocs ics hnodup]

/-- Witness for `c3_popped_is_transplanted_plus_old` at the concrete
merge of `m \x7bB', C\x7d` over `m \x7bA, B\x7d`. -/
theorem c3_popped_is_transplanted_plus_old_witness :
    findByName [exOld] exInfoM.name = some (.node exInfoM [exA, exB]) ∧
    (addC [exOld] (.node exInfoM [exB2, exCc])).popped =
      [exA, exB].filter (fun x => !hasChildNamed [exB2, exCc] x.nameOf) ++
        [.node exInfoM [exA, exB]] :=
  ⟨by decide,
   c3_popped_is_transplanted_plus_old [exOld] exInfoM exInfoM [exB2, exCc] [exA, exB]
     (by decide) rfl (by decide)⟩

/- ==================================================================
   Claim C6 — merge idempotence.
   ================================================================== -/

/-- Claim C6: `add(p)` followed by `add` of a copy of the piece as it sits
in the tree (in Python, `p` itself, mutated in place by the transplant
loop of the first `add`; its copy is value-equal) leaves the container's
children — hence its rendered text — unchanged, and the second `add`
returns exactly the originally added piece as evicted. -/
theorem c6_merge_idempotent (cs : List RPiece) (p : RPiece)
    (hnodup : (cs.map RPiece.nameOf).Nodup) :
    (addC (addC cs p).children (addC cs p).added).children = (addC cs p).children ∧
    (addC (addC cs p).children (addC cs p).added).popped = [(addC cs p).added] := by
  obtain ⟨ds, hch, hnm⟩ :
      ∃ ds, (addC cs p).children = ds ++ [(addC cs p).added] ∧
        ∀ x ∈ ds, x.nameOf ≠ (addC cs p).added.nameOf := by
    rw [addC_added_name]
    cases hf : findByName cs p.nameOf with
    | none =>
        exact ⟨cs, by simp [addC, hf], (findByName_eq_none _ _).mp hf⟩
    | some old =>
        exact ⟨eraseFirstByName cs p.nameOf, by simp [addC, hf],
               eraseFirstByName_name_ne cs p.nameOf hnodup⟩
  rw [hch, addC_readd ds (addC cs p).added hnm]
  exact ⟨rfl, rfl⟩

/-- Witness for `c6_merge_idempotent`: re-adding the merged struct
`m \x7bB', C, A\x7d` into `[m \x7bB', C, A\x7d]` changes nothing and
returns it as evicted. -/
theorem c6_merge_idempotent_witness :
    ([exOld].map RPiece.nameOf).Nodup ∧
    (addC (addC [exOld] exNew).children (addC [exOld] exNew).added).children =
      (addC [exOld] exNew).children ∧
    (addC (addC [exOld] exNew).children (addC [exOld] exNew).added).popped =
      [(addC [exOld] exNew).added] :=
  ⟨by decide, (c6_merge_idempotent [exOld] exNew (by decide)).1,
   (c6_merge_idempotent [exOld] exNew (by decide)).2⟩

/- ==================================================================
   Claim C4 — walk-derived line ranges.
   ================================================================== -/

theorem rangesAux_bounds (frags : List (List String × String)) :
    ∀ start, ∀ r ∈ rangesAux start frags, start ≤ r.2.1 ∧ r.2.1 ≤ r.2.2 := by
  induction frags with
  | nil => intro start r hr; simp [rangesAux] at hr
  | cons f rest ih =>
      intro start r hr
      obtain ⟨ref, text⟩ := f
      simp only [rangesAux] at hr
      rcases List.mem_append.mp hr with h1 | h2
      · cases hkeep : keepFrag text with
        | false => rw [hkeep] at h1; simp at h1
        | true =>
            rw [hkeep] at h1
            simp at h1
            subst h1
            exact ⟨Nat.le_refl _, Nat.le_add_right _ _⟩
      · have := ih (start + countNL text) r h2
        exact ⟨Nat.le_trans (Nat.le_add_right _ _) this.1, this.2⟩

theorem rangesAux_chain (frags : List (List String × String)) :
    ∀ start, (rangesAux start frags).Chain' (fun a b => a.2.2 ≤ b.2.1) := by
  induction frags with
  | nil => intro start; simp [rangesAux]
  | cons f rest ih =>
      intro start
      obtain ⟨ref, text⟩ := f
      simp only [rangesAux]
      cases hkeep : keepFrag text with
      | false => simpa using ih (start + countNL text)
      | true =>
          rw [if_pos (Eq.refl true), List.singleton_append, List.chain'_cons']
          refine ⟨?_, ih (start + countNL text)⟩
          intro b hb
          exact (rangesAux_bounds rest (start + countNL text) b
                  (List.mem_of_mem_head? hb)).1

theorem rangesAux_refs (frags : List (List String × String)) :
    ∀ start, (rangesAux start frags).map (fun r => r.1) =
      (frags.filter (fun f => keepFrag f.2)).map (fun f => f.1) := by
  induction frags with
  | nil => intro start; rfl
  | cons f rest ih =>
      intro start
      obtain ⟨ref, text⟩ := f
      simp only [rangesAux, List.filter_cons]
      cases hkeep : keepFrag text <;>
        simp [ih (start + countNL text)]

/-- Claim C4 counterexample: for a program containing one `impl` with one
`fn`, the impl header's range is lines 1–2 and the function's range is
lines 2–2 — both inclusive ranges contain line 2, so walk-derived ranges
are not pairwise non-overlapping. -/
theorem c4_overlapping_ranges_counterexample :
    pieceRefRanges exCode4 = [(["impl X"], 1, 2), (["impl X", "f"], 2, 2)] ∧
    ¬ (pieceRefRanges exCode4).Pairwise (fun a b => a.2.2 < b.2.1) := by
  constructor
  · decide
  · decide

/-- Claim C4 (amended): walk-derived ranges are 1-based inclusive
(`1 ≤ start ≤ end`), consecutive ranges satisfy `end₁ ≤ start₂` — so start
lines are non-decreasing and two consecutive ranges share at most their
boundary line (full non-overlap does not hold when a fragment stops
mid-line) — and exactly the fragments that strip to whitespace/punctuation
are omitted (the surviving refs are those of the kept fragments, in
order). -/
theorem c4_range_monotone (t : RPiece) :
    (∀ r ∈ pieceRefRanges t, 1 ≤ r.2.1 ∧ r.2.1 ≤ r.2.2) ∧
    (pieceRefRanges t).Chain' (fun a b => a.2.2 ≤ b.2.1) ∧
    (pieceRefRanges t).map (fun r => r.1) =
      ((walkF t []).filter (fun f => keepFrag f.2)).map (fun f => f.1) :=
  ⟨fun r hr => rangesAux_bounds (walkF t []) 1 r hr,
   rangesAux_chain (walkF t []) 1,
   rangesAux_refs (walkF t []) 1⟩

/- ==================================================================
   Claim C9 — relation retry bound.
   ================================================================== -/

theorem applyOp_retry_invariant (maxRetry : Nat) (st : EngineSt) (p : Nat × Nat)
    (op : EngineOp) (h1 : maxRetry ≤ st.tryCount p) (h2 : p ∉ st.relations) :
    maxRetry ≤ (applyOp maxRetry st op).tryCount p ∧
    p ∉ (applyOp maxRetry st op).relations := by
  cases op with
  | addR r =>
      refine ⟨h1, fun hmem => ?_⟩
      simp only [applyOp, addRelation, Finset.mem_union, Finset.mem_filter] at hmem
      rcases hmem with h | h
      · exact h2 h
      · exact Nat.lt_irrefl _ (Nat.lt_of_lt_of_le h.2.2 h1)
  | removeR r =>
      constructor
      · simp only [applyOp, removeRelation]
        split
        · exact Nat.le_succ_of_le h1
        · exact h1
      · simp only [applyOp, removeRelation, Finset.mem_sdiff]
        exact fun hmem => h2 hmem.1

/-- Claim C9: once a pair's retry counter has reached the configured
maximum and the pair is not pending, no interleaving of
`_add_relation`/`_remove_relation` calls ever puts it back into the
pending relation set (batches are seeded from that set). -/
theorem c9_relation_retry_bound (maxRetry : Nat) (st : EngineSt) (p : Nat × Nat)
    (ops : List EngineOp) (h1 : maxRetry ≤ st.tryCount p) (h2 : p ∉ st.relations) :
    p ∉ (applyOps maxRetry st ops).relations := by
  induction ops generalizing st with
  | nil => exact h2
  | cons op rest ih =>
      have h := applyOp_retry_invariant maxRetry st p op h1 h2
      exact ih (applyOp maxRetry st op) h.1 h.2

/- ==================================================================
   Claim C1 — when does `match` raise `MatchFail`.
   ================================================================== -/

theorem dictAppend_key {α : Type} (m : List (SegId × List α)) (s : SegId) (rs : List α)
    (t : SegId) :
    (dictAppend m s rs).any (fun e => e.1 == t) =
      (m.any (fun e => e.1 == t) || (s == t)) := by
  unfold dictAppend
  by_cases hm : (m.any fun e => e.1 == s) = true
  · rw [if_pos hm, List.any_map]
    have hsame : ∀ l : List (SegId × List α),
        l.any ((fun e => e.1 == t) ∘ fun e => if e.1 == s then (e.1, e.2 ++ rs) else e)
          = l.any (fun e => e.1 == t) := by
      intro l
      induction l with
      | nil => rfl
      | cons e rest ih =>
          simp only [List.any_cons, ih]
          by_cases he : e.1 = s <;> simp [he]
    rw [hsame]
    by_cases hst : s = t
    · subst hst
      simp only [beq_self_eq_true, Bool.or_true]
      exact hm
    · simp [hst]
  · rw [if_neg hm, List.any_append]
    simp

theorem buildMatches_fold_key {α : Type} (cps : List (String × SegId))
    (mp : String → List α) (t : SegId) :
    ∀ m : List (SegId × List α),
    ((cps.foldl (fun m e => dictAppend m e.2 (mp e.1)) m).any fun x => x.1 == t) =
      ((m.any fun x => x.1 == t) || cps.any fun e => e.2 == t) := by
  induction cps with
  | nil => intro m; simp
  | cons e rest ih =>
      intro m
      simp only [List.foldl_cons, List.any_cons]
      rw [ih, dictAppend_key]
      simp [Bool.or_assoc]

theorem buildMatches_key {α : Type} (cps : List (String × SegId))
    (mp : String → List α) (t : SegId) :
    ((buildMatches cps mp).any fun x => x.1 == t) = cps.any fun e => e.2 == t := by
  unfold buildMatches
  rw [buildMatches_fold_key]
  simp

theorem anyMapGen {α β : Type} (f : α → β) (l : List α) (p : β → Bool) :
    (l.map f).any p = l.any (p ∘ f) := by
  induction l with
  | nil => rfl
  | cons x xs ih => simp [List.any_cons, ih]

theorem upsertPiece_fresh (m : List (String × SegId)) (cp : String) (s : SegId)
    (h : (m.any fun e => e.1 == cp) = false) :
    upsertPiece m cp s = m ++ [(cp, s)] := by
  unfold upsertPiece
  rw [if_neg (by simp [h])]

theorem foldl_upsert_fresh (ps : List String) (s : SegId) :
    ∀ m : List (String × SegId),
    (∀ cp ∈ ps, (m.any fun e => e.1 == cp) = false) → ps.Nodup →
    ps.foldl (fun m cp => upsertPiece m cp s) m = m ++ ps.map (fun cp => (cp, s)) := by
  induction ps with
  | nil => intro m _ _; simp
  | cons cp rest ih =>
      intro m hfresh hnd
      rw [List.nodup_cons] at hnd
      simp only [List.foldl_cons]
      rw [upsertPiece_fresh m cp s (hfresh cp (by simp))]
      rw [ih (m ++ [(cp, s)]) ?_ hnd.2]
      · simp
      · intro x hx
        rw [List.any_append]
        have h1 : (m.any fun e => e.1 == x) = false := hfresh x (by simp [hx])
        have h2 : ([(cp, s)].any fun e => e.1 == x) = false := by
          simp only [List.any_cons, List.any_nil, Bool.or_false]
          simp only [beq_eq_false_iff_ne, ne_eq]
          exact fun he => hnd.1 (he ▸ hx)
        rw [h1, h2]
        rfl

theorem buildCPieces_fold_flatten (segs : List (SegId × List String)) :
    ∀ m : List (String × SegId),
    (∀ cp ∈ (segs.map (fun sv => sv.2)).flatten, (m.any fun e => e.1 == cp) = false) →
    ((segs.map (fun sv => sv.2)).flatten).Nodup →
    segs.foldl (fun m sv => sv.2.foldl (fun m cp => upsertPiece m cp sv.1) m) m =
      m ++ (segs.map (fun sv => sv.2.map (fun cp => (cp, sv.1)))).flatten := by
  induction segs with
  | nil => intro m _ _; simp
  | cons sv rest ih =>
      intro m hfresh hnd
      simp only [List.map_cons, List.flatten_cons] at hfresh hnd
      rw [List.nodup_append] at hnd
      simp only [List.foldl_cons, List.map_cons, List.flatten_cons]
      rw [foldl_upsert_fresh sv.2 sv.1 m
            (fun cp h => hfresh cp (List.mem_append_left _ h)) hnd.1]
      rw [ih (m ++ sv.2.map fun cp => (cp, sv.1)) ?_ hnd.2.1]
      · rw [List.append_assoc]
      · intro x hx
        rw [List.any_append]
        have h1 : (m.any fun e => e.1 == x) = false :=
          hfresh x (List.mem_append_right _ hx)
        have h2 : ((sv.2.map fun cp => (cp, sv.1)).any fun e => e.1 == x) = false := by
          rw [anyMapGen]
          have hxs : x ∉ sv.2 := fun hmem => hnd.2.2 hmem hx
          simp only [List.any_eq_false]
          intro y hy
          simp only [Function.comp_apply, beq_iff_eq]
          exact fun he => hxs (he ▸ hy)
        rw [h1, h2]
        rfl

theorem buildCPieces_eq (segs : List (SegId × List String))
    (hnd : ((segs.map (fun sv => sv.2)).flatten).Nodup) :
    buildCPieces segs =
      (segs.map (fun sv => sv.2.map (fun cp => (cp, sv.1)))).flatten := by
  unfold buildCPieces
  have := buildCPieces_fold_flatten segs [] (by simp) hnd
  simpa using this

theorem any_const {β : Type} (l : List β) (c : Bool) :
    (l.any fun _ => c) = (!l.isEmpty && c) := by
  cases l with
  | nil => rfl
  | cons x xs =>
      simp only [List.any_cons, List.isEmpty_cons, Bool.not_false, Bool.true_and]
      cases c with
      | false => simp [any_const xs false]
      | true => simp

theorem segPairs_any (segs : List (SegId × List String)) (t : SegId) :
    (((segs.map (fun sv => sv.2.map (fun cp => (cp, sv.1)))).flatten).any
        fun e => e.2 == t) =
      segs.any (fun sv => !sv.2.isEmpty && sv.1 == t) := by
  induction segs with
  | nil => rfl
  | cons sv rest ih =>
      simp only [List.map_cons, List.flatten_cons, List.any_append, List.any_cons, ih]
      have : ((sv.2.map fun cp => (cp, sv.1)).any fun e => e.2 == t)
          = (!sv.2.isEmpty && sv.1 == t) := by
        rw [anyMapGen]
        exact any_const sv.2 (sv.1 == t)
      rw [this]

/-- Claim C1 counterexample: one source unit whose single parsed piece
matches zero target Pieces — the unit ends up with zero matched Pieces,
yet `match` raises nothing and returns successfully with an empty mapping
(the `defaultdict` entry created by `matches[...].extend([])` satisfies
the final check). -/
theorem c1_unmatched_unit_no_matchfail_counterexample :
    buildMatches (buildCPieces [(0, ["p"])]) (fun _ => ([] : List Nat)) = [(0, [])] ∧
    matchF [(0, ["p"])] (fun _ => ([] : List Nat)) = .ok [] := by
  constructor
  · decide
  · decide

/-- Claim C1 (amended): when source pieces are textually distinct across
units, `match` raises `MatchFail` exactly when some source unit has *no
parsed source pieces at all* — a unit whose pieces all fail to match gets
an empty `defaultdict` entry and does not raise; `try_to_match` never
raises and its result (also returned by a successful `match`) is the
mapping restricted to units with at least one matched Piece. -/
theorem c1_matchfail_characterization {α : Type} (segs : List (SegId × List String))
    (mp : String → List α)
    (hkeys : (segs.map (fun sv => sv.1)).Nodup)
    (hpieces : ((segs.map (fun sv => sv.2)).flatten).Nodup) :
    (matchF segs mp = .error () ↔ ∃ sv ∈ segs, sv.2 = []) ∧
    (∀ e ∈ tryToMatchF segs mp, e.2 ≠ []) := by
  have hun : unmatchedSegs segs mp =
      (segs.map (fun sv => sv.1)).filter
        (fun s => !segs.any (fun sv => !sv.2.isEmpty && sv.1 == s)) := by
    unfold unmatchedSegs
    simp only [buildMatches_key, buildCPieces_eq segs hpieces, segPairs_any]
  have hiff : (unmatchedSegs segs mp).isEmpty = false ↔ ∃ sv ∈ segs, sv.2 = [] := by
    rw [hun]
    constructor
    · intro hne
      obtain ⟨s, hsmem, hpred⟩ : ∃ s ∈ segs.map (fun sv => sv.1),
          (!segs.any fun sv => !sv.2.isEmpty && sv.1 == s) = true := by
        rcases hfe : (segs.map (fun sv => sv.1)).filter
            (fun s => !segs.any (fun sv => !sv.2.isEmpty && sv.1 == s)) with _ | ⟨x, xs⟩
        · rw [hfe] at hne
          exact absurd hne (by decide)
        · have hx : x ∈ (segs.map (fun sv => sv.1)).filter
              (fun s => !segs.any (fun sv => !sv.2.isEmpty && sv.1 == s)) := by
            rw [hfe]
            exact List.mem_cons_self x xs
          exact ⟨x, (List.mem_filter.mp hx).1, (List.mem_filter.mp hx).2⟩
      obtain ⟨sv₀, hsv₀, rfl⟩ := List.mem_map.mp hsmem
      refine ⟨sv₀, hsv₀, ?_⟩
      have hall : (segs.any fun sv => !sv.2.isEmpty && sv.1 == sv₀.1) = false := by
        simpa using hpred
      rw [List.any_eq_false] at hall
      have h0 := hall sv₀ hsv₀
      simp only [Bool.and_eq_true, beq_self_eq_true, and_true, Bool.not_eq_true',
                 Bool.not_eq_false] at h0
      simpa [List.isEmpty_iff] using h0
    · rintro ⟨sv, hsv, hnil⟩
      have hmem : sv.1 ∈ (segs.map (fun sv => sv.1)).filter
          (fun s => !segs.any (fun sv => !sv.2.isEmpty && sv.1 == s)) := by
        rw [List.mem_filter]
        refine ⟨List.mem_map_of_mem _ hsv, ?_⟩
        simp only [Bool.not_eq_true', List.any_eq_false]
        intro sv' hsv'
        by_cases he : sv'.1 = sv.1
        · have : sv' = sv := List.inj_on_of_nodup_map hkeys hsv' hsv he
          subst this
          simp [hnil]
        · simp [he]
      rw [Bool.eq_false_iff]
      intro hemp
      rw [List.isEmpty_iff] at hemp
      rw [hemp] at hmem
      cases hmem
  refine ⟨?_, ?_⟩
  · constructor
    · intro herr
      by_cases hc : (unmatchedSegs segs mp).isEmpty = true
      · unfold matchF at herr
        rw [if_pos hc] at herr
        exact Except.noConfusion herr
      · exact hiff.mp (Bool.eq_false_iff.mpr hc)
    · intro hex
      unfold matchF
      rw [if_neg (by rw [hiff.mpr hex]; exact Bool.false_ne_true)]
  · intro e he
    have hf := (List.mem_filter.mp he).2
    simp only [Bool.not_eq_true'] at hf
    intro hnil
    rw [hnil] at hf
    simp at hf

/-- Witness for `c1_matchfail_characterization`: two units, the second
with no parsed pieces — `match` raises. -/
theorem c1_matchfail_characterization_witness :
    ((c1wSegs.map (fun sv => sv.1)).Nodup ∧
      ((c1wSegs.map (fun sv => sv.2)).flatten).Nodup) ∧
    matchF c1wSegs (fun _ => ([] : List Nat)) = .error () :=
  ⟨⟨by decide, by decide⟩,
   (c1_matchfail_characterization c1wSegs (fun _ => ([] : List Nat))
       (by decide) (by decide)).1.mpr ⟨(1, []), by decide, rfl⟩⟩

/-- Claim C7: for a source C function `add`, with target functions `add`
and `Add` both present, the exact (threshold-100) name match wins; with
only `Add` present the matcher falls back (to the token-normalized match
inside `match_exactly_or_by_tokens`) and returns `Add`.  The hypotheses
state the two facts used about `thefuzz.fuzz.ratio`: it scores `add`
against itself at 100 and `add` against `Add` below 100. -/
theorem c7_matcher_cascade_priority ( simScore : String → String → Nat)
    (h1 : 100 ≤ simScore "add" "add") (h2 : ¬ 100 ≤ simScore "add" "Add") :
    matchPieceCFunction simScore (some "add") [fnAdd, fnAddCap] = [fnAdd] ∧
    matchPieceCFunction simScore (some "add") [fnAddCap, fnAdd] = [fnAdd] ∧
    matchPieceCFunction simScore (some "add") [fnAddCap] = [fnAddCap] := by
  have e1 : matchSimilarlyGen simScore (fun s => s) 100 (some "add")
      [fnAdd, fnAddCap] [kFn] = [fnAdd] := by
    simp [matchSimilarlyGen, bestBySim, fnAdd, fnAddCap, kFn, RPiece.kindOf,
          RPiece.nameOf, h1, h2]
  have e2 : matchSimilarlyGen simScore (fun s => s) 100 (some "add")
      [fnAddCap, fnAdd] [kFn] = [fnAdd] := by
    simp [matchSimilarlyGen, bestBySim, fnAdd, fnAddCap, kFn, RPiece.kindOf,
          RPiece.nameOf, h1, h2]
  have e3 : matchSimilarlyGen simScore (fun s => s) 100 (some "add")
      [fnAddCap] [kFn] = [] := by
    simp [matchSimilarlyGen, bestBySim, fnAddCap, kFn, RPiece.kindOf,
          RPiece.nameOf, h2]
  refine ⟨?_, ?_, ?_⟩
  · simp [matchPieceCFunction, matchExactlyOrByTokens, e1]
  · simp [matchPieceCFunction, matchExactlyOrByTokens, e2]
  · simp only [matchPieceCFunction, matchExactlyOrByTokens, e3]
    decide

/-- Witness for `c7_matcher_cascade_priority` with a concrete scorer. -/
theorem c7_matcher_cascade_priority_witness :
    (100 ≤ simEq "add" "add" ∧ ¬ 100 ≤ simEq "add" "Add") ∧
    matchPieceCFunction simEq (some "add") [fnAdd, fnAddCap] = [fnAdd] ∧
    matchPieceCFunction simEq (some "add") [fnAddCap] = [fnAddCap] :=
  ⟨⟨by decide, by decide⟩,
   (c7_matcher_cascade_priority simEq (by decide) (by decide)).1,
   (c7_matcher_cascade_priority simEq (by decide) (by decide)).2.2⟩

/- ==================================================================
   Claim C8 — structural enum fallback.
   ================================================================== -/

/-- Claim C8: for a source C enum on which the name-based strategies
produce nothing (e.g. an unnamed enum), whenever some candidate target
enum's lowercased variant-name set equals the lowercased source
enumerator-name set, the matcher returns such an enum (the first one). -/
theorem c8_structural_enum_fallback ( simScore : String → String → Nat)
    (e : CEnumSrc) (targets : List RPiece)
    (h1 : matchExactlyOrByTokens simScore e.name targets [kEnum] = [])
    (h2 : matchByTokensF e.name targets [kEnum] = [])
    (h3 : ∃ t ∈ targets,
      (t.kindOf == kEnum &&
        lowerSetEq (t.childrenOf.map RPiece.nameOf) e.enumeratorNames) = true) :
    ∃ c ∈ targets, matchPieceCEnum simScore e targets = [c] ∧ c.kindOf = kEnum ∧
      lowerSetEq (c.childrenOf.map RPiece.nameOf) e.enumeratorNames = true := by
  have hs : (targets.find? (fun c =>
      c.kindOf == kEnum &&
        lowerSetEq (c.childrenOf.map RPiece.nameOf) e.enumeratorNames)).isSome := by
    rw [List.find?_isSome]
    exact h3
  obtain ⟨c, hc⟩ := Option.isSome_iff_exists.mp hs
  have hmem := List.mem_of_find?_eq_some hc
  have hpred := List.find?_some hc
  rw [Bool.and_eq_true] at hpred
  refine ⟨c, hmem, ?_, by simpa using hpred.1, hpred.2⟩
  simp [matchPieceCEnum, h1, h2, matchEnumerators, hc]

/-- Witness for `c8_structural_enum_fallback`: the unnamed enum
`\x7bRED, GREEN, BLUE\x7d` matches the target enum `Color` with variants
`\x7bred, green, blue\x7d`. -/
theorem c8_structural_enum_fallback_witness :
    matchExactlyOrByTokens simEq cEnumRGB.name [enumColor] [kEnum] = [] ∧
    matchByTokensF cEnumRGB.name [enumColor] [kEnum] = [] ∧
    ∃ c ∈ [enumColor], matchPieceCEnum simEq cEnumRGB [enumColor] = [c] ∧
      c.kindOf = kEnum ∧
      lowerSetEq (c.childrenOf.map RPiece.nameOf) cEnumRGB.enumeratorNames = true :=
  ⟨by decide, by decide,
   c8_structural_enum_fallback simEq cEnumRGB [enumColor] (by decide) (by decide)
     ⟨enumColor, by decide, by decide⟩⟩

/- ==================================================================
   Claim C5 — trimmed: minimality and idempotence.
   ================================================================== -/

theorem trimKids_cons (c : RPiece) (rest s : List RPiece) :
    trimKids (c :: rest) s = trimSelect c s ++ trimKids rest s := by
  cases c <;> rfl

theorem trimmedF_node_eq (i : NodeInfo) (cs s : List RPiece) :
    trimmedF (.node i cs) s =
      if (addMany [] (trimKids cs s)).isEmpty then none
      else some (.node i (addMany [] (trimKids cs s))) := rfl

theorem trimmedF_some_shape (i : NodeInfo) (cs s : List RPiece) (t' : RPiece)
    (h : trimmedF (.node i cs) s = some t') :
    t' = .node i (addMany [] (trimKids cs s)) ∧
    (addMany [] (trimKids cs s)).isEmpty = false := by
  rw [trimmedF_node_eq] at h
  by_cases hc : (addMany [] (trimKids cs s)).isEmpty = true
  · rw [if_pos hc] at h
    exact Option.noConfusion h
  · rw [if_neg hc] at h
    exact ⟨(Option.some_inj.mp h).symm, Bool.eq_false_iff.mpr hc⟩

theorem addC_no_collision (cs : List RPiece) (it : RPiece)
    (h : findByName cs it.nameOf = none) :
    addC cs it = ⟨cs ++ [it], [], it⟩ := by
  unfold addC
  rw [h]

theorem addMany_nodup : ∀ (items acc : List RPiece),
    (((acc ++ items).map RPiece.nameOf)).Nodup → addMany acc items = acc ++ items := by
  intro items
  induction items with
  | nil => intro acc _; simp [addMany]
  | cons it rest ih =>
      intro acc hnd
      have hfr : findByName acc it.nameOf = none := by
        rw [findByName_eq_none]
        intro x hx he
        have : it.nameOf ∈ acc.map RPiece.nameOf := he ▸ List.mem_map_of_mem _ hx
        rw [List.map_append, List.nodup_append] at hnd
        exact hnd.2.2 this (by simp)
      have hih := ih (acc ++ [it]) (by simpa using hnd)
      unfold addMany at hih ⊢
      rw [List.foldl_cons, addC_no_collision acc it hfr]
      simpa using hih

theorem trimSelect_of_contains (c : RPiece) (s : List RPiece)
    (h : s.contains c = true) : trimSelect c s = [c] := by
  unfold trimSelect
  rw [if_pos h]

theorem trimSelect_atom_eq (k : Nat) (n cm a t : String) (s : List RPiece)
    (h : s.contains (RPiece.atom k n cm a t) = false) :
    trimSelect (.atom k n cm a t) s = [] := by
  unfold trimSelect
  rw [if_neg (by rw [h]; exact Bool.false_ne_true)]

theorem trimSelect_node_eq (i : NodeInfo) (cs s : List RPiece)
    (h : s.contains (RPiece.node i cs) = false) :
    trimSelect (.node i cs) s =
      (if i.splittable then
        (match trimmedF (.node i cs) s with | some spl => [spl] | none => [])
      else if hasDescIn (.node i cs) s then [.node i cs] else []) := by
  unfold trimSelect
  rw [if_neg (by rw [h]; exact Bool.false_ne_true)]

theorem trimSelect_cases (c : RPiece) (s : List RPiece) :
    trimSelect c s = [] ∨ ∃ x, trimSelect c s = [x] ∧ x.nameOf = c.nameOf := by
  by_cases h1 : s.contains c = true
  · exact Or.inr ⟨c, trimSelect_of_contains c s h1, rfl⟩
  · have h1' : s.contains c = false := Bool.eq_false_iff.mpr h1
    cases c with
    | atom k0 n0 c0 a0 t0 => exact Or.inl (trimSelect_atom_eq _ _ _ _ _ s h1')
    | node i cs =>
        rw [trimSelect_node_eq i cs s h1']
        by_cases h2 : i.splittable = true
        · rw [if_pos h2]
          cases hspl : trimmedF (.node i cs) s with
          | none => exact Or.inl rfl
          | some spl =>
              obtain ⟨hshape, _⟩ := trimmedF_some_shape i cs s spl hspl
              exact Or.inr ⟨spl, rfl, by rw [hshape]; rfl⟩
        · rw [if_neg h2]
          by_cases h3 : hasDescIn (.node i cs) s = true
          · rw [if_pos h3]
            exact Or.inr ⟨_, rfl, rfl⟩
          · rw [if_neg h3]
            exact Or.inl rfl

theorem trimKids_names_sublist (s : List RPiece) :
    ∀ cs : List RPiece,
    ((trimKids cs s).map RPiece.nameOf).Sublist (cs.map RPiece.nameOf) := by
  intro cs
  induction cs with
  | nil => simp [trimKids]
  | cons c rest ih =>
      rw [trimKids_cons, List.map_append, List.map_cons]
      rcases trimSelect_cases c s with h | ⟨x, hx, hname⟩
      · rw [h]
        simpa using List.Sublist.cons c.nameOf ih
      · rw [hx]
        simpa [hname] using List.Sublist.cons₂ c.nameOf ih

theorem wfNamesList_parts : ∀ (c : RPiece) (rest : List RPiece),
    wfNamesList (c :: rest) = true →
    wfNames c = true ∧ hasChildNamed rest c.nameOf = false ∧ wfNamesList rest = true := by
  intro c rest h
  have : (wfNames c && !hasChildNamed rest c.nameOf && wfNamesList rest) = true := h
  simp only [Bool.and_eq_true, Bool.not_eq_true'] at this
  exact ⟨this.1.1, this.1.2, this.2⟩

theorem wfNamesList_nodup : ∀ cs, wfNamesList cs = true →
    ((cs.map RPiece.nameOf)).Nodup := by
  intro cs
  induction cs with
  | nil => intro _; simp
  | cons c rest ih =>
      intro h
      obtain ⟨_, hnc, hrest⟩ := wfNamesList_parts c rest h
      rw [List.map_cons, List.nodup_cons]
      refine ⟨?_, ih hrest⟩
      rw [hasChildNamed_false_iff] at hnc
      intro hmem
      obtain ⟨x, hx, he⟩ := List.mem_map.mp hmem
      exact hnc x hx he

theorem wfNamesList_mem : ∀ cs, wfNamesList cs = true → ∀ c ∈ cs, wfNames c = true := by
  intro cs
  induction cs with
  | nil => intro _ c hc; simp at hc
  | cons c rest ih =>
      intro h x hx
      obtain ⟨hc, _, hrest⟩ := wfNamesList_parts c rest h
      rcases List.mem_cons.mp hx with rfl | hxr
      · exact hc
      · exact ih hrest x hxr

theorem trimKids_of_self (s : List RPiece) :
    ∀ xs : List RPiece, (∀ x ∈ xs, trimSelect x s = [x]) → trimKids xs s = xs := by
  intro xs
  induction xs with
  | nil => intro _; rfl
  | cons x rest ih =>
      intro h
      rw [trimKids_cons, h x (by simp), ih (fun y hy => h y (by simp [hy]))]
      rfl

theorem trimKids_self_select (s : List RPiece) :
    ∀ cs : List RPiece, wfNamesList cs = true →
    (∀ c ∈ cs, ∀ x, trimmedF c s = some x → trimmedF x s = some x) →
    ∀ x ∈ trimKids cs s, trimSelect x s = [x] := by
  intro cs
  induction cs with
  | nil => intro _ _ x hx; simp [trimKids] at hx
  | cons c rest ih =>
      intro hwf hidem x hx
      obtain ⟨_, _, hwfr⟩ := wfNamesList_parts c rest hwf
      rw [trimKids_cons] at hx
      rcases List.mem_append.mp hx with hxc | hxr
      · -- contributed by the head child
        by_cases h1 : s.contains c = true
        · rw [trimSelect_of_contains c s h1] at hxc
          have hxe : x = c := by simpa using hxc
          subst hxe
          exact trimSelect_of_contains x s h1
        · have h1' : s.contains c = false := Bool.eq_false_iff.mpr h1
          cases c with
          | atom k0 n0 c0 a0 t0 =>
              rw [trimSelect_atom_eq _ _ _ _ _ s h1'] at hxc
              simp at hxc
          | node i cs₀ =>
              rw [trimSelect_node_eq i cs₀ s h1'] at hxc
              by_cases h2 : i.splittable = true
              · rw [if_pos h2] at hxc
                cases hspl : trimmedF (.node i cs₀) s with
                | none => rw [hspl] at hxc; simp at hxc
                | some spl =>
                    rw [hspl] at hxc
                    have hxspl : x = spl := by simpa using hxc
                    subst hxspl
                    obtain ⟨hshape, _⟩ := trimmedF_some_shape i cs₀ s x hspl
                    have hidx : trimmedF x s = some x :=
                      hidem (.node i cs₀) (by simp) x hspl
                    by_cases hc1 : s.contains x = true
                    · exact trimSelect_of_contains x s hc1
                    · subst hshape
                      rw [trimSelect_node_eq _ _ s (Bool.eq_false_iff.mpr hc1),
                          if_pos h2, hidx]
              · rw [if_neg h2] at hxc
                by_cases h3 : hasDescIn (.node i cs₀) s = true
                · rw [if_pos h3] at hxc
                  have hxe : x = .node i cs₀ := by simpa using hxc
                  subst hxe
                  by_cases hc1 : s.contains (RPiece.node i cs₀) = true
                  · exact trimSelect_of_contains _ s hc1
                  · rw [trimSelect_node_eq i cs₀ s (Bool.eq_false_iff.mpr hc1),
                        if_neg h2, if_pos h3]
                · rw [if_neg h3] at hxc
                  simp at hxc
      · exact ih hwfr (fun c' hc' => hidem c' (by simp [hc'])) x hxr

theorem trimmed_idem_aux : ∀ n : Nat, ∀ (t : RPiece) (s : List RPiece) (t' : RPiece),
    sizeOf t ≤ n → wfNames t = true → trimmedF t s = some t' →
    trimmedF t' s = some t' := by
  intro n
  induction n with
  | zero =>
      intro t s t' hsz _ _
      exact absurd hsz (by cases t <;> simp)
  | succ n ih =>
      intro t s t' hsz hwf htr
      cases t with
      | atom k nm c a tx => exact Option.noConfusion htr
      | node i cs =>
          obtain ⟨rfl, hne⟩ := trimmedF_some_shape i cs s t' htr
          have hwfl : wfNamesList cs = true := hwf
          have hnodup_cs : ((cs.map RPiece.nameOf)).Nodup := wfNamesList_nodup cs hwfl
          have hnodup_sel : (((trimKids cs s).map RPiece.nameOf)).Nodup :=
            List.Nodup.sublist (trimKids_names_sublist s cs) hnodup_cs
          have hcollapse : addMany [] (trimKids cs s) = trimKids cs s :=
            addMany_nodup (trimKids cs s) [] (by simpa using hnodup_sel)
          have hsel : ∀ x ∈ trimKids cs s, trimSelect x s = [x] := by
            apply trimKids_self_select s cs hwfl
            intro c hc x hcx
            have hszc : sizeOf c ≤ n := by
              have h1 : sizeOf c < sizeOf cs := List.sizeOf_lt_of_mem hc
              have h2 : sizeOf cs < sizeOf (RPiece.node i cs) := by simp
              omega
            exact ih c s x hszc (wfNamesList_mem cs hwfl c hc) hcx
          rw [hcollapse] at hne ⊢
          rw [trimmedF_node_eq, trimKids_of_self s _ hsel, hcollapse, if_neg (by rw [hne]; exact Bool.false_ne_true)]

/-- Claim C5 counterexample: trimming the program `[struct s \x7bf1, f2\x7d]`
to the set `\x7bf1\x7d` keeps the whole non-splittable struct, so the
result contains `f2`, which is neither requested nor an ancestor shell of
any requested piece (it has no descendants at all) — `trimmed(T, S)` does
not contain *exactly* the requested descendants plus minimal ancestor
shells. -/
theorem c5_trim_not_minimal_counterexample :
    trimmedF exCode5 [exF1] = some (.node exRootInfo [exStruct]) ∧
    exF2 ∈ strictDesc (.node exRootInfo [exStruct]) ∧
    exF2 ∉ [exF1] ∧
    (strictDesc exF2).all (fun d => !([exF1].contains d)) = true := by
  refine ⟨by decide, by decide, by decide, by decide⟩

/-- Claim C5 (amended): `trimmed` keeps requested children whole,
recursively trims splittable children, and keeps whole any non-splittable
container holding a requested strict descendant (so unrequested siblings
inside such containers survive, and the result is not always minimal); it
never mutates its input (it assembles copies); and it is idempotent: on a
well-formed tree, `trimmed(trimmed(T,S),S) = trimmed(T,S)`. -/
theorem c5_trimmed_idempotent (t t' : RPiece) (s : List RPiece)
    (hwf : wfNames t = true) (h : trimmedF t s = some t') :
    trimmedF t' s = some t' :=
  trimmed_idem_aux (sizeOf t) t s t' (Nat.le_refl _) hwf h

/-- Witness for `c5_trimmed_idempotent` on the struct example. -/
theorem c5_trimmed_idempotent_witness :
    wfNames exCode5 = true ∧
    trimmedF exCode5 [exF1] = some (.node exRootInfo [exStruct]) ∧
    trimmedF (.node exRootInfo [exStruct]) [exF1] = some (.node exRootInfo [exStruct]) :=
  ⟨by decide, by decide,
   c5_trimmed_idempotent exCode5 (.node exRootInfo [exStruct]) [exF1]
     (by decide) (by decide)⟩

/- ==================================================================
   Claim C10 — attribute normalization of `RustPiece.create`.
   ================================================================== -/

theorem begins_nil_false (p : List Char) (hp : p ≠ []) : begins p [] = false := by
  cases p with
  | nil => exact absurd rfl hp
  | cons a as => rfl

theorem begins_append_short : ∀ (p xs ys : List Char),
    p.length ≤ xs.length → begins p (xs ++ ys) = begins p xs := by
  intro p
  induction p with
  | nil => intro xs ys _; rfl
  | cons a as ih =>
      intro xs ys hlen
      cases xs with
      | nil => simp at hlen
      | cons x xs' =>
          simp only [List.cons_append, begins, List.append_eq]
          rw [ih xs' ys (by simpa using hlen)]

theorem begins_of_begins_append : ∀ (p xs ys : List Char),
    begins p (xs ++ ys) = true → xs.length ≤ p.length → begins xs p = true := by
  intro p
  induction p with
  | nil =>
      intro xs ys _ hl
      rw [List.length_nil, Nat.le_zero] at hl
      rw [List.length_eq_zero.mp hl]
      rfl
  | cons a as ih =>
      intro xs ys h hl
      cases xs with
      | nil => rfl
      | cons x xs' =>
          simp only [List.cons_append, begins, List.append_eq] at h ⊢
          rw [Bool.and_eq_true] at h ⊢
          refine ⟨?_, ih xs' ys h.2 (by simpa using hl)⟩
          have : a = x := by simpa using h.1
          simp [this]

theorem containsSub_cons (pat : List Char) (c : Char) (rest : List Char) :
    containsSub pat (c :: rest) = (begins pat (c :: rest) || containsSub pat rest) := rfl

theorem containsSub_of_begins {pat s : List Char} (h : begins pat s = true)
    (hp : pat ≠ []) : containsSub pat s = true := by
  cases s with
  | nil =>
      cases pat with
      | nil => exact absurd rfl hp
      | cons a as => exact absurd h (by rw [begins_nil_false _ hp]; exact Bool.false_ne_true)
  | cons c rest => simp [containsSub, h]

theorem containsSub_append_false (pat : List Char) (hp : pat ≠ []) :
    ∀ xs ys, containsSub pat xs = false → containsSub pat ys = false →
    (∀ u ∈ tailsL xs, u = [] ∨ pat.length ≤ u.length ∨ begins u pat = false) →
    containsSub pat (xs ++ ys) = false := by
  intro xs
  induction xs with
  | nil => intro ys _ hys _; simpa using hys
  | cons c xs' ih =>
      intro ys hxs hys hcf
      have hxs' : containsSub pat xs' = false := by
        rw [containsSub_cons] at hxs
        exact (Bool.or_eq_false_iff.mp hxs).2
      have hrec := ih ys hxs' hys
        (fun u hu => hcf u (by rw [show tailsL (c :: xs') = (c :: xs') :: tailsL xs' from rfl];
                               exact List.mem_cons_of_mem _ hu))
      rw [List.cons_append, containsSub_cons, hrec, Bool.or_false]
      by_cases hb : begins pat (c :: (xs' ++ ys)) = true
      · exfalso
        by_cases hl : pat.length ≤ (c :: xs').length
        · rw [show (c : Char) :: (xs' ++ ys) = (c :: xs') ++ ys from rfl] at hb
          rw [begins_append_short pat (c :: xs') ys hl] at hb
          have hcon : containsSub pat (c :: xs') = true := containsSub_of_begins hb hp
          rw [hxs] at hcon
          exact Bool.noConfusion hcon
        · have hxp : begins (c :: xs') pat = true :=
            begins_of_begins_append pat (c :: xs') ys hb (Nat.le_of_lt (Nat.lt_of_not_le hl))
          have hu := hcf (c :: xs')
            (by rw [show tailsL (c :: xs') = (c :: xs') :: tailsL xs' from rfl]; simp)
          rcases hu with h | h | h
          · exact List.noConfusion h
          · exact hl h
          · rw [hxp] at h
            exact Bool.noConfusion h
      · exact Bool.eq_false_iff.mpr hb

theorem replNM_suffix_transfer : ∀ (fuel : Nat) (s : List Char) (k : Nat),
    s.length ≤ fuel → 1 ≤ k → k ≤ patNM.length →
    begins (patNM.drop (patNM.length - k)) (replNMAux fuel s) = true →
    begins (patNM.drop (patNM.length - k)) s = true := by
  intro fuel
  induction fuel with
  | zero => intro s k _ _ _ h; exact h
  | succ fuel ih =>
      intro s k hs hk1 hk2 h
      cases s with
      | nil =>
          exfalso
          have hlen : (patNM.drop (patNM.length - k)).length = k := by
            rw [List.length_drop]
            omega
          have hne : patNM.drop (patNM.length - k) ≠ [] := by
            intro he
            rw [he] at hlen
            simp at hlen
            omega
          rw [show replNMAux (fuel + 1) [] = [] from rfl] at h
          rw [begins_nil_false _ hne] at h
          exact Bool.noConfusion h
      | cons c rest =>
          by_cases hb : begins patNM (c :: rest) = true
          · exfalso
            rw [show replNMAux (fuel + 1) (c :: rest)
                  = repNM ++ replNMAux fuel (rest.drop (patNM.length - 1)) from by
                  simp [replNMAux, hb]] at h
            have hk20 : (patNM.drop (patNM.length - k)).length ≤ repNM.length := by
              rw [List.length_drop]
              have : patNM.length = 12 := by decide
              have : repNM.length = 20 := by decide
              omega
            rw [begins_append_short _ repNM _ hk20] at h
            have hfact : ∀ j, j < 13 → 1 ≤ j →
                begins (patNM.drop (patNM.length - j)) repNM = false := by decide
            have hk13 : k < 13 := by
              have : patNM.length = 12 := by decide
              omega
            rw [hfact k hk13 hk1] at h
            exact Bool.noConfusion h
          · rw [show replNMAux (fuel + 1) (c :: rest) = c :: replNMAux fuel rest from by
                  simp [replNMAux, hb]] at h
            have hidx : patNM.length - k < patNM.length := by
              have : patNM.length = 12 := by decide
              omega
            rw [List.drop_eq_getElem_cons hidx] at h ⊢
            simp only [begins] at h ⊢
            rw [Bool.and_eq_true] at h
            rw [Bool.and_eq_true]
            refine ⟨h.1, ?_⟩
            by_cases hk : k = 1
            · subst hk
              rw [show patNM.length - 1 + 1 = patNM.length from by
                    have : patNM.length = 12 := by decide
                    omega]
              rw [List.drop_length]
              rfl
            · have harith : patNM.length - k + 1 = patNM.length - (k - 1) := by
                have : patNM.length = 12 := by decide
                omega
              rw [harith] at h ⊢
              exact ih rest (k - 1) (by simpa using Nat.le_of_succ_le_succ hs)
                (by omega)
                (by have : patNM.length = 12 := by decide
                    omega) h.2

theorem replNM_no_pat : ∀ (fuel : Nat) (s : List Char), s.length ≤ fuel →
    containsSub patNM (replNMAux fuel s) = false := by
  intro fuel
  induction fuel with
  | zero =>
      intro s hs
      rw [List.length_eq_zero.mp (Nat.le_zero.mp hs)]
      rfl
  | succ fuel ih =>
      intro s hs
      cases s with
      | nil => rfl
      | cons c rest =>
          by_cases hb : begins patNM (c :: rest) = true
          · rw [show replNMAux (fuel + 1) (c :: rest)
                  = repNM ++ replNMAux fuel (rest.drop (patNM.length - 1)) from by
                  simp [replNMAux, hb]]
            apply containsSub_append_false patNM (by decide)
            · decide
            · have hd : (rest.drop (patNM.length - 1)).length ≤ rest.length := by
                rw [List.length_drop]
                omega
              exact ih _ (Nat.le_trans hd (by simpa using Nat.le_of_succ_le_succ hs))
            · decide
          · rw [show replNMAux (fuel + 1) (c :: rest) = c :: replNMAux fuel rest from by
                  simp [replNMAux, hb]]
            rw [containsSub_cons]
            rw [ih rest (by simpa using Nat.le_of_succ_le_succ hs), Bool.or_false]
            by_cases hfull : begins patNM (c :: replNMAux fuel rest) = true
            · exfalso
              have htr := replNM_suffix_transfer (fuel + 1) (c :: rest) patNM.length hs
                (by decide) (Nat.le_refl _) ?_
              · rw [show patNM.length - patNM.length = 0 from by omega,
                    List.drop_zero] at htr
                exact hb htr
              · rw [show patNM.length - patNM.length = 0 from by omega, List.drop_zero]
                rw [show replNMAux (fuel + 1) (c :: rest) = c :: replNMAux fuel rest from by
                      simp [replNMAux, hb]]
                exact hfull
            · exact Bool.eq_false_iff.mpr hfull

/-- Claim C10 counterexample: normalizing the attribute text
`#[te#[test]st]` deletes the inner `#[test]` and splices the surrounding
text into a *new* `#[test]`, so the normalized attribute block — and hence
the rendered piece — still contains a `#[test]` attribute. -/
theorem c10_test_splice_counterexample :
    normAttr "#[te#[test]st]" = "#[test]" ∧
    containsSub patTest (normAttr "#[te#[test]st]").toList = true := by
  refine ⟨by decide, by decide⟩

/-- Claim C10 (amended): `RustPiece.create` normalizes the attribute block
by deleting every scanned `\n?[ \t]*#\[test\]` match and then replacing
every `#[no_mangle]` with `#[unsafe(no_mangle)]`; for every input the
normalized attribute block contains no occurrence of `#[no_mangle]`
(so no bare `#[no_mangle]` survives in it), but deletion can splice a new
`#[test]` out of surrounding text, so `#[test]`-freedom does not hold for
every input (and the normalization never touches the comment block or the
body text). -/
theorem c10_no_bare_no_mangle (s : String) :
    containsSub patNM (normAttr s).toList = false := by
  rw [show (normAttr s).toList = replNM (removeTest s.toList) from rfl]
  rw [show replNM (removeTest s.toList)
        = replNMAux (removeTest s.toList).length (removeTest s.toList) from rfl]
  exact replNM_no_pat _ _ (Nat.le_refl _)

/-- Witness for `c9_relation_retry_bound`: pair `(0,1)` with an exhausted
counter stays out of the pending set across an add/remove/add sequence. -/
theorem c9_relation_retry_bound_witness :
    1 ≤ st9.tryCount (0, 1) ∧ (0, 1) ∉ st9.relations ∧
    (0, 1) ∉ (applyOps 1 st9
        [.addR {(0, 1)}, .removeR {(0, 1)}, .addR {(0, 1)}]).relations :=
  ⟨Nat.le_refl 1, Finset.not_mem_empty _,
   c9_relation_retry_bound 1 st9 (0, 1)
     [.addR {(0, 1)}, .removeR {(0, 1)}, .addR {(0, 1)}]
     (Nat.le_refl 1) (Finset.not_mem_empty _)⟩

end C2R
